import Mathlib

/-!
Shallow embedding of the `buffered-io` crate: `BufferedWrite` from
`src/asynch/write.rs` and `BufferedRead` from `src/read.rs` /
`src/asynch/read.rs` (the blocking and async variants share the same
algorithm, byte for byte).  Byte buffers are `List Nat`; machine `usize`
arithmetic never overflows in the source (all quantities are bounded by
slice lengths), so `Nat` is used directly.  The inner stream is modelled
as a scripted state machine, faithful to the `embedded-io` trait
contract and to the `UnstableWrite` test double in the source.
-/

set_option maxHeartbeats 1000000
set_option linter.unusedVariables false

/-- Result of a wrapper operation: success, a propagated inner-stream
error, or a Rust panic (an `assert!` failure or the
`embedded-io` `write_all` panic on `Ok(0)`). -/
inductive Res (α ε : Type) where
  | ok (a : α)
  | err (e : ε)
  | panicked
deriving DecidableEq, Repr

/-- Write `xs` into list `l` starting at index `start`, the translation of
`l[start..start + xs.length].copy_from_slice(xs)`. -/
def setSlice (l : List Nat) (start : Nat) (xs : List Nat) : List Nat :=
  l.take start ++ xs ++ l.drop (start + xs.length)

/-- Translation of `l.copy_within(s..e, 0)`: copy the range `[s, e)` of `l`
to the front of `l`. -/
def copyWithin0 (l : List Nat) (s e : Nat) : List Nat :=
  setSlice l 0 ((l.drop s).take (e - s))

/-- Scripted inner writer.  `written` records every byte the stream has
accepted, in order.  `script` drives `write`: an `ok n` entry accepts
`min n (src.length)` bytes, an `error e` entry fails with `e`; an empty
script accepts everything (a perfect sink).  `flushScript` drives
`flush` the same way; `writes` and `flushes` count calls. -/
structure InnerW (ε : Type) where
  written : List Nat
  script : List (Except ε Nat)
  flushScript : List (Option ε)
  writes : Nat
  flushes : Nat

/-- One `inner.write(src)` call: consume the next script entry (or accept
all of `src` if the script is empty). -/
def InnerW.write (i : InnerW ε) (src : List Nat) : InnerW ε × Except ε Nat :=
  match i.script with
  | [] =>
    ({ i with written := i.written ++ src, writes := i.writes + 1 }, .ok src.length)
  | .error e :: rest =>
    ({ i with script := rest, writes := i.writes + 1 }, .error e)
  | .ok n :: rest =>
    let k := min n src.length
    ({ i with written := i.written ++ src.take k, script := rest,
              writes := i.writes + 1 }, .ok k)

/-- One `inner.flush()` call, driven by `flushScript`. -/
def InnerW.flushStep (i : InnerW ε) : InnerW ε × Except ε Unit :=
  match i.flushScript with
  | [] => ({ i with flushes := i.flushes + 1 }, .ok ())
  | none :: rest => ({ i with flushScript := rest, flushes := i.flushes + 1 }, .ok ())
  | some e :: rest => ({ i with flushScript := rest, flushes := i.flushes + 1 }, .error e)

/-- Fuel-indexed retry loop behind `write_all`; each successful round
accepts at least one byte, so fuel `src.length` always suffices and the
zero-fuel case with a non-empty remainder is unreachable (see
`writeAllAux_irrel`).  Structural recursion on the fuel keeps the
function kernel-reducible for concrete witnesses. -/
def InnerW.writeAllAux : Nat → InnerW ε → List Nat → InnerW ε × Res Unit ε
  | _, i, [] => (i, .ok ())
  | 0, i, _ :: _ => (i, .panicked)
  | fuel + 1, i, a :: as =>
    match (i.write (a :: as) : InnerW ε × Except ε Nat) with
    | (i', .error e) => (i', .err e)
    | (i', .ok k) =>
      if k = 0 then (i', .panicked)
      else InnerW.writeAllAux fuel i' ((a :: as).drop k)

/-- The `embedded-io` provided `write_all` over `InnerW.write`: retry with
the unaccepted remainder until all bytes are written or an error occurs;
a write that accepts `0` bytes of a non-empty remainder panics
(`panic!("write() returned Ok(0)")` in `embedded-io`). -/
def InnerW.writeAll (i : InnerW ε) (src : List Nat) : InnerW ε × Res Unit ε :=
  InnerW.writeAllAux src.length i src

/-- State of `BufferedWrite` (src/asynch/write.rs): the inner writer, the
borrowed buffer (its length is the capacity) and `pos`, the count of
buffered not-yet-committed bytes. -/
structure BufferedWrite (ε : Type) where
  inner : InnerW ε
  buf : List Nat
  pos : Nat

/-- Translation of `BufferedWrite::new`. -/
def BufferedWrite.new (inner : InnerW ε) (buf : List Nat) : BufferedWrite ε :=
  { inner := inner, buf := buf, pos := 0 }

/-- Translation of `BufferedWrite::new_with_data`: the source performs no
validation of `written` (src/asynch/write.rs lines 21-27 have no
`assert!`). -/
def BufferedWrite.new_with_data (inner : InnerW ε) (buf : List Nat) (written : Nat) :
    BufferedWrite ε :=
  { inner := inner, buf := buf, pos := written }

/-- Translation of `BufferedWrite::is_empty`. -/
def BufferedWrite.is_empty (s : BufferedWrite ε) : Bool :=
  s.pos == 0

/-- Translation of `BufferedWrite::written`. -/
def BufferedWrite.written (s : BufferedWrite ε) : Nat :=
  s.pos

/-- Translation of `BufferedWrite::clear`. -/
def BufferedWrite.clear (s : BufferedWrite ε) : BufferedWrite ε :=
  { s with pos := 0 }

/-- Translation of `BufferedWrite::bypass`: the inner writer, only when
`pos == 0`, else `BypassError` (modelled as `none`). -/
def BufferedWrite.bypass (s : BufferedWrite ε) : Option (InnerW ε) :=
  match s.pos with
  | 0 => some s.inner
  | _ + 1 => none

/-- Translation of `BufferedWrite::bypass_with_buf`: inner writer and raw
buffer, only when `pos == 0`, else `BypassError` (`none`). -/
def BufferedWrite.bypass_with_buf (s : BufferedWrite ε) :
    Option (InnerW ε × List Nat) :=
  match s.pos with
  | 0 => some (s.inner, s.buf)
  | _ + 1 => none

/-- Translation of `BufferedWrite::split` (src/asynch/write.rs lines
60-63): it returns `(inner, buf, pos)` unconditionally; the source has no
`pos == 0` guard and no `BypassError` on this path. -/
def BufferedWrite.split (s : BufferedWrite ε) : InnerW ε × List Nat × Nat :=
  (s.inner, s.buf, s.pos)

/-- Translation of `BufferedWrite::release`. -/
def BufferedWrite.release (s : BufferedWrite ε) : InnerW ε :=
  s.inner

/-- Translation of `BufferedWrite::write` (src/asynch/write.rs lines
89-123).  Empty `src` returns `Ok(0)`; `pos == 0 && src.len() >= cap` is
the bypass; otherwise `buffered = min(src.len, cap - pos)` bytes are
copied in (`assert!(buffered > 0)` modelled as `panicked`), and when the
buffer becomes exactly full one inner write of the whole buffer is
attempted, `pos` being assigned only after that write succeeds. -/
def BufferedWrite.write (s : BufferedWrite ε) (src : List Nat) :
    BufferedWrite ε × Res Nat ε :=
  if src = [] then (s, .ok 0)
  else if s.pos = 0 ∧ src.length ≥ s.buf.length then
    let (i', r) := s.inner.write src
    ({ s with inner := i' },
      match r with
      | .ok n => .ok n
      | .error e => .err e)
  else
    let buffered := min src.length (s.buf.length - s.pos)
    if buffered = 0 then (s, .panicked)
    else
      let newBuf := setSlice s.buf s.pos (src.take buffered)
      let new_pos := s.pos + buffered
      if new_pos < s.buf.length then
        ({ s with buf := newBuf, pos := new_pos }, .ok buffered)
      else
        let (i', r) := s.inner.write newBuf
        match r with
        | .error e => ({ s with buf := newBuf, inner := i' }, .err e)
        | .ok w =>
          if w < new_pos then
            ({ s with buf := copyWithin0 newBuf w new_pos,
                      pos := new_pos - w, inner := i' }, .ok buffered)
          else
            ({ s with buf := newBuf, pos := 0, inner := i' }, .ok buffered)

/-- Translation of `BufferedWrite::flush` (src/asynch/write.rs lines
125-132): when `pos > 0`, `write_all` the first `pos` buffered bytes,
setting `pos = 0` only on success, then (and only then) call the inner
flush. -/
def BufferedWrite.flush (s : BufferedWrite ε) : BufferedWrite ε × Res Unit ε :=
  if s.pos > 0 then
    match s.inner.writeAll (s.buf.take s.pos) with
    | (i', .err e) => ({ s with inner := i' }, .err e)
    | (i', .panicked) => ({ s with inner := i' }, .panicked)
    | (i', .ok _) =>
      let s' : BufferedWrite ε := { s with inner := i', pos := 0 }
      let (i'', r) := s'.inner.flushStep
      ({ s' with inner := i'' },
        match r with
        | .ok _ => .ok ()
        | .error e => .err e)
  else
    let (i'', r) := s.inner.flushStep
    ({ s with inner := i'' },
      match r with
      | .ok _ => .ok ()
      | .error e => .err e)

/-- Scripted inner reader.  `data` is the remaining stream content.
`read` delivers a prefix of `data`: with an empty script,
`min (dst.length) (data.length)` bytes (a plain slice reader, as in the
source's tests); an `ok n` script entry throttles the delivery to at
most `n` bytes (a partial read); an `error e` entry fails.  `reads`
counts calls. -/
structure InnerR (ε : Type) where
  data : List Nat
  script : List (Except ε Nat)
  reads : Nat

/-- One `inner.read(dst)` call, `dstLen` being `dst.len()`; returns the
bytes placed into `dst`. -/
def InnerR.read (i : InnerR ε) (dstLen : Nat) : InnerR ε × Except ε (List Nat) :=
  match i.script with
  | [] =>
    let k := min dstLen i.data.length
    ({ i with data := i.data.drop k, reads := i.reads + 1 }, .ok (i.data.take k))
  | .error e :: rest =>
    ({ i with script := rest, reads := i.reads + 1 }, .error e)
  | .ok n :: rest =>
    let k := min n (min dstLen i.data.length)
    ({ i with data := i.data.drop k, script := rest, reads := i.reads + 1 },
      .ok (i.data.take k))

/-- State of `BufferedRead` (src/read.rs): the inner reader, the borrowed
buffer, the index `offset` of the first unread buffered byte and the
count `available` of unread buffered bytes. -/
structure BufferedRead (ε : Type) where
  inner : InnerR ε
  buf : List Nat
  offset : Nat
  available : Nat

/-- Translation of `BufferedRead::new`. -/
def BufferedRead.new (inner : InnerR ε) (buf : List Nat) : BufferedRead ε :=
  { inner := inner, buf := buf, offset := 0, available := 0 }

/-- Translation of `BufferedRead::new_with_data`, whose
`assert!(offset + available <= buf.len())` is modelled by returning
`none` exactly when the assertion fires. -/
def BufferedRead.new_with_data (inner : InnerR ε) (buf : List Nat)
    (offset available : Nat) : Option (BufferedRead ε) :=
  if offset + available ≤ buf.length then
    some { inner := inner, buf := buf, offset := offset, available := available }
  else none

/-- Translation of `BufferedRead::is_empty`. -/
def BufferedRead.is_empty (s : BufferedRead ε) : Bool :=
  s.available == 0

/-- Translation of the `available` accessor. -/
def BufferedRead.availableBytes (s : BufferedRead ε) : Nat :=
  s.available

/-- Translation of `BufferedRead::bypass`: the inner reader, only when
`available == 0`, else `BypassError` (`none`). -/
def BufferedRead.bypass (s : BufferedRead ε) : Option (InnerR ε) :=
  match s.available with
  | 0 => some s.inner
  | _ + 1 => none

/-- Translation of `BufferedRead::release`. -/
def BufferedRead.release (s : BufferedRead ε) : InnerR ε :=
  s.inner

/-- The drain phase shared by both branches of `BufferedRead::read`
(src/read.rs lines 96-107): copy `min(available, dst.len())` bytes out of
`buf[offset..]`, then either advance `offset`/`available` or reset
`available` to `0`. -/
def BufferedRead.readCopy (s : BufferedRead ε) (dstLen : Nat) :
    BufferedRead ε × List Nat :=
  let len := min s.available dstLen
  let out := (s.buf.drop s.offset).take len
  if len < s.available then
    ({ s with offset := s.offset + len, available := s.available - len }, out)
  else
    ({ s with available := 0 }, out)

/-- Translation of `BufferedRead::read` (src/read.rs lines 86-108);
returns the bytes copied into `dst`.  When `available == 0`: bypass to
the inner reader if `dst.len() >= buf.len()`, else refill the whole
local buffer (`offset = 0` is assigned before the inner call, and
`available` only from its successful result). -/
def BufferedRead.read (s : BufferedRead ε) (dstLen : Nat) :
    BufferedRead ε × Except ε (List Nat) :=
  if s.available = 0 then
    if dstLen ≥ s.buf.length then
      let (i', r) := s.inner.read dstLen
      ({ s with inner := i' }, r)
    else
      let (i', r) := s.inner.read s.buf.length
      match r with
      | .error e => ({ s with inner := i', offset := 0 }, .error e)
      | .ok bytes =>
        let s' : BufferedRead ε :=
          { s with inner := i', offset := 0,
                   buf := setSlice s.buf 0 bytes, available := bytes.length }
        let (s'', out) := s'.readCopy dstLen
        (s'', .ok out)
  else
    let (s'', out) := s.readCopy dstLen
    (s'', .ok out)

/-- Translation of `BufferedRead::fill_buf` (src/read.rs lines 112-119):
refill the whole buffer from the inner reader when `available == 0`,
then return the view `buf[offset..offset + available]`. -/
def BufferedRead.fill_buf (s : BufferedRead ε) :
    BufferedRead ε × Except ε (List Nat) :=
  if s.available = 0 then
    let (i', r) := s.inner.read s.buf.length
    match r with
    | .error e => ({ s with inner := i', offset := 0 }, .error e)
    | .ok bytes =>
      let s' : BufferedRead ε :=
        { s with inner := i', offset := 0,
                 buf := setSlice s.buf 0 bytes, available := bytes.length }
      (s', .ok ((s'.buf.drop s'.offset).take s'.available))
  else
    (s, .ok ((s.buf.drop s.offset).take s.available))

/-- Translation of `BufferedRead::consume` (src/read.rs lines 121-125),
whose `assert!(amt <= available)` is modelled by `none` when it fires. -/
def BufferedRead.consume (s : BufferedRead ε) (amt : Nat) :
    Option (BufferedRead ε) :=
  if amt ≤ s.available then
    some { s with offset := s.offset + amt, available := s.available - amt }
  else none

/-- The reader's buffer invariant from the spec:
`offset + available <= C`. -/
def BufferedRead.inv (s : BufferedRead ε) : Prop :=
  s.offset + s.available ≤ s.buf.length

/-- Specification-following variant of `split`, written from the spec
sentence "`bypass()` / `bypass_with_buf()` / `split()`: return access to
`inner` (optionally with the raw buffer) only when `pos == 0`, else fail
with `BypassError`"; to be compared with the source's
`BufferedWrite.split`. -/
def BufferedWrite.splitSpec (s : BufferedWrite ε) :
    Option (InnerW ε × List Nat × Nat) :=
  if s.pos = 0 then some (s.inner, s.buf, s.pos) else none

/-- All bytes logically submitted through the writer so far: those the
inner stream has received plus those still buffered (`buf[..pos]`). -/
def BufferedWrite.absBytes (s : BufferedWrite ε) : List Nat :=
  s.inner.written ++ s.buf.take s.pos

/-- Fuel-indexed caller-side resubmission loop; as in `writeAllAux`, a
fuel of `src.length` always suffices because the loop only continues
when at least one byte was accepted. -/
def BufferedWrite.writeFullyAux : Nat → BufferedWrite ε → List Nat → BufferedWrite ε
  | _, s, [] => s
  | 0, s, _ :: _ => s
  | fuel + 1, s, a :: as =>
    match (s.write (a :: as) : BufferedWrite ε × Res Nat ε) with
    | (s', Res.ok n) =>
      if 0 < n ∧ n < (a :: as).length then
        BufferedWrite.writeFullyAux fuel s' ((a :: as).drop n)
      else s'
    | (s', Res.err _) => s'
    | (s', Res.panicked) => s'

/-- The caller-side partial-write loop from the claim: submit `src` and
re-submit any unaccepted remainder, per the standard partial-write
contract; stops on error or panic. -/
def BufferedWrite.writeFully (s : BufferedWrite ε) (src : List Nat) :
    BufferedWrite ε :=
  BufferedWrite.writeFullyAux src.length s src

/-- A sequence of caller writes, each slice submitted to completion. -/
def BufferedWrite.writeMany (s : BufferedWrite ε) (srcs : List (List Nat)) :
    BufferedWrite ε :=
  srcs.foldl BufferedWrite.writeFully s

/-- The `embedded-io` reader contract "read returns `0` only at
end-of-stream", expressed on the script: every throttling entry delivers
at least one byte (errors are unrestricted). -/
def InnerR.scriptPositive (i : InnerR ε) : Prop :=
  ∀ n, Except.ok n ∈ i.script → 1 ≤ n

/-- A perfect-sink inner writer over a trivial error type, used for
concrete witnesses. -/
def sinkW : InnerW Unit := ⟨[], [], [], 0, 0⟩

/-- An inner writer that fails its first write and then accepts
everything, mirroring the `UnstableWrite` test double. -/
def failThenSinkW : InnerW Unit := ⟨[], [Except.error ()], [], 0, 0⟩

/-- An inner writer that accepts exactly one byte of its first write and
then accepts everything, used for the partial-commit witness. -/
def partialOneW : InnerW Unit := ⟨[], [Except.ok 1], [], 0, 0⟩

/-- A plain slice inner reader over a trivial error type, used for
concrete witnesses. -/
def sliceR (data : List Nat) : InnerR Unit := ⟨data, [], 0⟩

theorem setSlice_length (l xs : List Nat) (start : Nat)
    (h : start + xs.length ≤ l.length) :
    (setSlice l start xs).length = l.length := by
  simp [setSlice]
  omega

theorem setSlice_eq_append (l xs : List Nat) (start : Nat)
    (h : start + xs.length = l.length) :
    setSlice l start xs = l.take start ++ xs := by
  simp [setSlice, List.drop_eq_nil_of_le (by omega : l.length ≤ start + xs.length)]

theorem take_append_of_length_eq (a b : List Nat) (n : Nat) (h : a.length = n) :
    (a ++ b).take n = a := by
  subst h
  simp

theorem setSlice_take_start (l xs : List Nat) (start : Nat) (h : start ≤ l.length) :
    (setSlice l start xs).take start = l.take start := by
  unfold setSlice
  rw [List.append_assoc]
  exact take_append_of_length_eq _ _ _ (by simp; omega)

theorem setSlice_take_add (l xs : List Nat) (start : Nat) (h : start ≤ l.length) :
    (setSlice l start xs).take (start + xs.length) = l.take start ++ xs := by
  unfold setSlice
  rw [List.append_assoc, List.take_append_eq_append_take]
  have hlen : (l.take start).length = start := by simp; omega
  rw [hlen]
  have h1 : (l.take start).take (start + xs.length) = l.take start := by
    rw [List.take_take]
    congr 1
    omega
  have h2 : start + xs.length - start = xs.length := by omega
  rw [h1, h2, List.take_append_eq_append_take]
  simp

theorem copyWithin0_take (l : List Nat) (w : Nat) (h : w ≤ l.length) :
    (copyWithin0 l w l.length).take (l.length - w) = l.drop w := by
  unfold copyWithin0 setSlice
  simp only [List.take_zero, List.nil_append]
  rw [take_append_of_length_eq _ _ _ (by simp)]
  exact List.take_of_length_le (by simp)

/-- Characterization of `write` on the bypass path. -/
theorem write_bypass_eq (s : BufferedWrite ε) (src : List Nat) (i' : InnerW ε)
    (r : Except ε Nat) (hsrc : src ≠ []) (hby : s.pos = 0 ∧ src.length ≥ s.buf.length)
    (hiw : s.inner.write src = (i', r)) :
    s.write src = ({ s with inner := i' },
      match r with
      | .ok n => Res.ok n
      | .error e => Res.err e) := by
  simp only [BufferedWrite.write, if_neg hsrc, if_pos hby, hiw]
  cases r <;> rfl

/-- Characterization of `write` on the slow path when the buffer does not
become full: the bytes are accumulated and no inner call happens. -/
theorem write_not_full_eq (s : BufferedWrite ε) (src : List Nat) (b : Nat)
    (nb : List Nat) (hsrc : src ≠ [])
    (hby : ¬(s.pos = 0 ∧ src.length ≥ s.buf.length))
    (hbdef : b = min src.length (s.buf.length - s.pos))
    (hnb : nb = setSlice s.buf s.pos (src.take b))
    (hb : b ≠ 0) (hfull : s.pos + b < s.buf.length) :
    s.write src = ({ s with buf := nb, pos := s.pos + b }, Res.ok b) := by
  subst hbdef hnb
  simp only [BufferedWrite.write, if_neg hsrc, if_neg hby, if_neg hb, if_pos hfull]

/-- Characterization of `write` when the buffer becomes exactly full and
the inner write fails: the error is returned and `pos` is not assigned. -/
theorem write_full_err_eq (s : BufferedWrite ε) (src : List Nat) (b : Nat)
    (nb : List Nat) (i' : InnerW ε) (e : ε) (hsrc : src ≠ [])
    (hby : ¬(s.pos = 0 ∧ src.length ≥ s.buf.length))
    (hbdef : b = min src.length (s.buf.length - s.pos))
    (hnb : nb = setSlice s.buf s.pos (src.take b))
    (hb : b ≠ 0) (hfull : ¬ s.pos + b < s.buf.length)
    (hiw : s.inner.write nb = (i', .error e)) :
    s.write src = ({ s with buf := nb, inner := i' }, Res.err e) := by
  subst hbdef hnb
  simp only [BufferedWrite.write, if_neg hsrc, if_neg hby, if_neg hb, if_neg hfull, hiw]

/-- Characterization of `write` when the buffer becomes exactly full and
the inner write partially accepts it: the unwritten tail is shifted to
the front. -/
theorem write_full_partial_eq (s : BufferedWrite ε) (src : List Nat) (b : Nat)
    (nb : List Nat) (i' : InnerW ε) (w : Nat) (hsrc : src ≠ [])
    (hby : ¬(s.pos = 0 ∧ src.length ≥ s.buf.length))
    (hbdef : b = min src.length (s.buf.length - s.pos))
    (hnb : nb = setSlice s.buf s.pos (src.take b))
    (hb : b ≠ 0) (hfull : ¬ s.pos + b < s.buf.length)
    (hiw : s.inner.write nb = (i', .ok w)) (hw : w < s.pos + b) :
    s.write src =
      ({ s with buf := copyWithin0 nb w (s.pos + b), pos := s.pos + b - w, inner := i' },
        Res.ok b) := by
  subst hbdef hnb
  simp only [BufferedWrite.write, if_neg hsrc, if_neg hby, if_neg hb, if_neg hfull,
    hiw, if_pos hw]

/-- Characterization of `write` when the buffer becomes exactly full and
the inner write accepts it completely: `pos` is reset to `0`. -/
theorem write_full_all_eq (s : BufferedWrite ε) (src : List Nat) (b : Nat)
    (nb : List Nat) (i' : InnerW ε) (w : Nat) (hsrc : src ≠ [])
    (hby : ¬(s.pos = 0 ∧ src.length ≥ s.buf.length))
    (hbdef : b = min src.length (s.buf.length - s.pos))
    (hnb : nb = setSlice s.buf s.pos (src.take b))
    (hb : b ≠ 0) (hfull : ¬ s.pos + b < s.buf.length)
    (hiw : s.inner.write nb = (i', .ok w)) (hw : ¬ w < s.pos + b) :
    s.write src = ({ s with buf := nb, pos := 0, inner := i' }, Res.ok b) := by
  subst hbdef hnb
  simp only [BufferedWrite.write, if_neg hsrc, if_neg hby, if_neg hb, if_neg hfull,
    hiw, if_neg hw]

/-- Characterization of `write` when the assert fires. -/
theorem write_assert_eq (s : BufferedWrite ε) (src : List Nat)
    (hsrc : src ≠ []) (hby : ¬(s.pos = 0 ∧ src.length ≥ s.buf.length))
    (hb : min src.length (s.buf.length - s.pos) = 0) :
    s.write src = (s, Res.panicked) := by
  simp only [BufferedWrite.write, if_neg hsrc, if_neg hby, if_pos hb]

/-- C10: for every call to `BufferedWrite::write` with non-empty `src`,
under the precondition `pos < buf.len()`, the internal
`assert!(buffered > 0)` never fires: `write` either takes the bypass
path or accepts `min(src.len(), buf.len() - pos) >= 1` bytes, so `write`
never panics and every `Ok` result on the buffered path is at least `1`;
the precondition is needed because a state with `pos == buf.len()` makes
the slow path panic. -/
theorem c10_assert_never_fires (s : BufferedWrite ε) (src : List Nat)
    (hsrc : src ≠ []) :
    (s.pos < s.buf.length →
      (s.write src).2 ≠ Res.panicked ∧
      (¬(s.pos = 0 ∧ s.buf.length ≤ src.length) →
        1 ≤ min src.length (s.buf.length - s.pos) ∧
        ((s.write src).2 = Res.ok (min src.length (s.buf.length - s.pos)) ∨
          ∃ e, (s.write src).2 = Res.err e))) ∧
    (s.buf.length ≠ 0 → s.pos = s.buf.length →
      (s.write src).2 = Res.panicked) := by
  have hsl : 0 < src.length := List.length_pos.mpr hsrc
  constructor
  · intro hlt
    by_cases hby : s.pos = 0 ∧ src.length ≥ s.buf.length
    · rcases hiw : s.inner.write src with ⟨i1, r1⟩
      rw [write_bypass_eq s src i1 r1 hsrc hby hiw]
      refine ⟨by cases r1 <;> simp, fun hnot => absurd ⟨hby.1, hby.2⟩ hnot⟩
    · have hb : min src.length (s.buf.length - s.pos) ≠ 0 := by omega
      have hres : (s.write src).2 = Res.ok (min src.length (s.buf.length - s.pos)) ∨
          ∃ e, (s.write src).2 = Res.err e := by
        by_cases hfull : s.pos + min src.length (s.buf.length - s.pos) < s.buf.length
        · rw [write_not_full_eq s src _ _ hsrc hby rfl rfl hb hfull]
          exact Or.inl rfl
        · rcases hiw : s.inner.write (setSlice s.buf s.pos
              (src.take (min src.length (s.buf.length - s.pos)))) with ⟨i1, r1⟩
          cases r1 with
          | error e =>
            rw [write_full_err_eq s src _ _ i1 e hsrc hby rfl rfl hb hfull hiw]
            exact Or.inr ⟨e, rfl⟩
          | ok w =>
            by_cases hw : w < s.pos + min src.length (s.buf.length - s.pos)
            · rw [write_full_partial_eq s src _ _ i1 w hsrc hby rfl rfl hb hfull hiw hw]
              exact Or.inl rfl
            · rw [write_full_all_eq s src _ _ i1 w hsrc hby rfl rfl hb hfull hiw hw]
              exact Or.inl rfl
      refine ⟨?_, fun _ => ⟨by omega, hres⟩⟩
      rcases hres with h | ⟨e, h⟩ <;> rw [h] <;> simp
  · intro hc0 hpos
    have hby : ¬(s.pos = 0 ∧ src.length ≥ s.buf.length) := by omega
    have hb : min src.length (s.buf.length - s.pos) = 0 := by omega
    rw [write_assert_eq s src hsrc hby hb]

/-- C10 witness: the writer over a 2-byte buffer holding one buffered
byte (`pos = 1 < 2`) accepts one byte of `[7]` without panicking. -/
theorem c10_witness :
    ((((BufferedWrite.new sinkW [0,0]).write [5]).1.write [7]).2 ≠ Res.panicked) := by
  have h := c10_assert_never_fires (((BufferedWrite.new sinkW [0,0]).write [5]).1) [7]
    (by decide)
  exact (h.1 (by decide)).1

/-- C4 counterexample: a writer over a 2-byte buffer with one buffered
unflushed byte (`pos = 1 ≠ 0`).  The spec-following `splitSpec` fails
(`BypassError`), but the source's `split` succeeds unconditionally and
hands out the inner writer together with the raw buffer and position:
the claim that `split` fails with `BypassError` whenever `pos != 0` is
false on the code. -/
theorem c4_counterexample :
    (((BufferedWrite.new sinkW [0,0]).write [7]).1.pos = 1) ∧
    (((BufferedWrite.new sinkW [0,0]).write [7]).1.splitSpec = none) ∧
    (((BufferedWrite.new sinkW [0,0]).write [7]).1.split =
      (((BufferedWrite.new sinkW [0,0]).write [7]).1.inner,
       ((BufferedWrite.new sinkW [0,0]).write [7]).1.buf, 1)) := by
  refine ⟨rfl, rfl, rfl⟩

/-- C4 amended: `bypass` and `bypass_with_buf` return access to the inner
writer only when `pos == 0` and fail with `BypassError` whenever
`pos != 0`; `split` has no such guard — it returns
`(inner, buffer, pos)` unconditionally, even when there are buffered
unflushed bytes. -/
theorem c4_amended (s : BufferedWrite ε) :
    s.split = (s.inner, s.buf, s.pos) ∧
    s.bypass = (if s.pos = 0 then some s.inner else none) ∧
    s.bypass_with_buf = (if s.pos = 0 then some (s.inner, s.buf) else none) := by
  refine ⟨rfl, ?_, ?_⟩ <;>
    first
    | (cases hp : s.pos with
       | zero => simp [BufferedWrite.bypass, BufferedWrite.bypass_with_buf, hp]
       | succ n => simp [BufferedWrite.bypass, BufferedWrite.bypass_with_buf, hp])

/-- C6 counterexample: `BufferedWrite::new_with_data` with
`written = 5 > 3 = buf.len()` does not fail: it constructs a writer whose
`pos` exceeds its capacity, violating `0 <= pos <= C`; the constructor in
src/asynch/write.rs lines 21-27 contains no assertion (contrast the
reader's constructor, which does assert). -/
theorem c6_counterexample :
    ((BufferedWrite.new_with_data sinkW [0,0,0] 5).pos = 5) ∧
    ¬((BufferedWrite.new_with_data sinkW [0,0,0] 5).pos ≤
       (BufferedWrite.new_with_data sinkW [0,0,0] 5).buf.length) := by
  refine ⟨rfl, by decide⟩

/-- C6 amended: `new_with_data(inner, buf, written)` performs no
validation: it constructs the writer with `pos = written` even when
`written > buf.len()`, so the invariant `0 <= pos <= C` is not enforced
at construction; the violation surfaces only later, when a subsequent
`write` with non-empty `src` panics at the internal
`assert!(buffered > 0)`. -/
theorem c6_amended (i : InnerW ε) (buf : List Nat) (written : Nat)
    (src : List Nat) (hw : buf.length < written) (hs : src ≠ []) :
    (BufferedWrite.new_with_data i buf written).pos = written ∧
    ((BufferedWrite.new_with_data i buf written).write src).2 = Res.panicked := by
  refine ⟨rfl, ?_⟩
  have h := write_assert_eq (BufferedWrite.new_with_data i buf written) src hs
    (by simp [BufferedWrite.new_with_data]; omega)
    (by simp [BufferedWrite.new_with_data]; omega)
  rw [h]

/-- C6 amended witness: the concrete out-of-range construction with
`written = 5` over a 3-byte buffer, followed by a one-byte write. -/
theorem c6_witness :
    (BufferedWrite.new_with_data sinkW [0,0,0] 5).pos = 5 ∧
    ((BufferedWrite.new_with_data sinkW [0,0,0] 5).write [9]).2 = Res.panicked :=
  c6_amended sinkW [0,0,0] 5 [9] (by decide) (by decide)

/-- Behaviour of one scripted inner write whose next entry is an error. -/
theorem InnerW.write_err_script (i : InnerW ε) (src : List Nat) (e : ε)
    (rest : List (Except ε Nat)) (h : i.script = .error e :: rest) :
    i.write src = ({ i with script := rest, writes := i.writes + 1 }, .error e) := by
  simp only [InnerW.write, h]

/-- Behaviour of one scripted inner write whose next entry accepts `n`
bytes, `n` within the submitted length. -/
theorem InnerW.write_ok_script (i : InnerW ε) (src : List Nat) (n : Nat)
    (rest : List (Except ε Nat)) (h : i.script = .ok n :: rest)
    (hn : n ≤ src.length) :
    i.write src =
      ({ i with written := i.written ++ src.take n, script := rest,
                writes := i.writes + 1 }, .ok n) := by
  simp only [InnerW.write, h, Nat.min_eq_left hn]

/-- Behaviour of one inner write against an empty script (perfect sink):
everything is accepted. -/
theorem InnerW.write_sink_eq (i : InnerW ε) (src : List Nat) (h : i.script = []) :
    i.write src =
      ({ i with written := i.written ++ src, writes := i.writes + 1 },
        .ok src.length) := by
  simp only [InnerW.write, h]

/-- C1: when `write` copies bytes into the local buffer and the buffer
becomes exactly full (`new_pos` equals capacity), it attempts exactly
one write of the full buffer to the inner stream; if that inner write
returns an error, `write` propagates that same error, `pos` keeps its
pre-call value (it is not advanced to `new_pos`), the already-committed
prefix `buf[..pos]` is untouched and no byte reaches the inner stream,
so a retry with the same bytes neither loses nor duplicates data. -/
theorem c1_full_commit_error_keeps_pos (s : BufferedWrite ε) (src : List Nat)
    (e : ε) (rest : List (Except ε Nat))
    (hp0 : s.pos ≠ 0) (hplt : s.pos < s.buf.length)
    (hfill : s.buf.length ≤ s.pos + src.length)
    (hscript : s.inner.script = .error e :: rest) :
    (s.write src).2 = Res.err e ∧
    (s.write src).1.pos = s.pos ∧
    (s.write src).1.buf.take s.pos = s.buf.take s.pos ∧
    (s.write src).1.inner.written = s.inner.written ∧
    (s.write src).1.inner.writes = s.inner.writes + 1 := by
  have hsrc : src ≠ [] := by
    intro h
    subst h
    simp at hfill
    omega
  have hby : ¬(s.pos = 0 ∧ src.length ≥ s.buf.length) := fun h => hp0 h.1
  have hbeq : min src.length (s.buf.length - s.pos) = s.buf.length - s.pos := by
    omega
  have hb : min src.length (s.buf.length - s.pos) ≠ 0 := by omega
  have hfull : ¬ s.pos + min src.length (s.buf.length - s.pos) < s.buf.length := by
    omega
  have hiw := InnerW.write_err_script s.inner
    (setSlice s.buf s.pos (src.take (min src.length (s.buf.length - s.pos)))) e rest
    hscript
  rw [write_full_err_eq s src _ _ _ e hsrc hby rfl rfl hb hfull hiw]
  refine ⟨rfl, rfl, ?_, rfl, rfl⟩
  exact setSlice_take_start s.buf _ s.pos (by omega)

/-- C1 witness: capacity-2 writer with one buffered byte; a one-byte
write fills the buffer exactly; the scripted inner stream fails, the
error comes back, and `pos`, the committed prefix, the received bytes
and the call count are as the theorem states. -/
theorem c1_witness :
    ((((BufferedWrite.new failThenSinkW [0,0]).write [5]).1.write [6]).2 =
        Res.err ()) ∧
    ((((BufferedWrite.new failThenSinkW [0,0]).write [5]).1.write [6]).1.pos =
        ((BufferedWrite.new failThenSinkW [0,0]).write [5]).1.pos) ∧
    ((((BufferedWrite.new failThenSinkW [0,0]).write [5]).1.write [6]).1.buf.take
        ((BufferedWrite.new failThenSinkW [0,0]).write [5]).1.pos =
      ((BufferedWrite.new failThenSinkW [0,0]).write [5]).1.buf.take
        ((BufferedWrite.new failThenSinkW [0,0]).write [5]).1.pos) ∧
    ((((BufferedWrite.new failThenSinkW [0,0]).write [5]).1.write [6]).1.inner.written =
        ((BufferedWrite.new failThenSinkW [0,0]).write [5]).1.inner.written) ∧
    ((((BufferedWrite.new failThenSinkW [0,0]).write [5]).1.write [6]).1.inner.writes =
        ((BufferedWrite.new failThenSinkW [0,0]).write [5]).1.inner.writes + 1) := by
  have h := c1_full_commit_error_keeps_pos
    (((BufferedWrite.new failThenSinkW [0,0]).write [5]).1) [6] () []
    (by decide) (by decide) (by decide) (by rfl)
  exact h

/-- C3: when the full-buffer commit inside `write` is only partially
accepted (`0 < written_count < capacity`), the unwritten tail
`buf[written_count..capacity]` is shifted to the start of the buffer,
`pos` becomes `capacity - written_count`, the bytes just copied from
`src` remain accounted for (every submitted byte is either delivered to
the inner stream or retained in the buffer — nothing is lost), and
`write` still returns the count of `src` bytes it accepted. -/
theorem c3_partial_commit_shifts_tail (s : BufferedWrite ε) (src : List Nat)
    (n : Nat) (rest : List (Except ε Nat))
    (hp0 : s.pos ≠ 0) (hplt : s.pos < s.buf.length)
    (hfill : s.buf.length ≤ s.pos + src.length)
    (hscript : s.inner.script = .ok n :: rest)
    (hn0 : 0 < n) (hnc : n < s.buf.length) :
    (s.write src).2 = Res.ok (s.buf.length - s.pos) ∧
    (s.write src).1.pos = s.buf.length - n ∧
    (s.write src).1.buf.take (s.buf.length - n) =
      (setSlice s.buf s.pos (src.take (s.buf.length - s.pos))).drop n ∧
    (s.write src).1.inner.written ++
        (s.write src).1.buf.take ((s.write src).1.pos) =
      s.inner.written ++ s.buf.take s.pos ++ src.take (s.buf.length - s.pos) := by
  have hsrc : src ≠ [] := by
    intro h
    subst h
    simp at hfill
    omega
  have hby : ¬(s.pos = 0 ∧ src.length ≥ s.buf.length) := fun h => hp0 h.1
  have hbeq : min src.length (s.buf.length - s.pos) = s.buf.length - s.pos := by
    omega
  have hb : min src.length (s.buf.length - s.pos) ≠ 0 := by omega
  have hfull : ¬ s.pos + min src.length (s.buf.length - s.pos) < s.buf.length := by
    omega
  have htl : (src.take (min src.length (s.buf.length - s.pos))).length =
      s.buf.length - s.pos := by
    simp
    omega
  have hnb_len : (setSlice s.buf s.pos
      (src.take (min src.length (s.buf.length - s.pos)))).length = s.buf.length :=
    setSlice_length _ _ _ (by omega)
  have hiw := InnerW.write_ok_script s.inner
    (setSlice s.buf s.pos (src.take (min src.length (s.buf.length - s.pos)))) n rest
    hscript (by omega)
  have hw : n < s.pos + min src.length (s.buf.length - s.pos) := by omega
  rw [write_full_partial_eq s src _ _ _ n hsrc hby rfl rfl hb hfull hiw hw]
  have hpb : s.pos + min src.length (s.buf.length - s.pos) =
      (setSlice s.buf s.pos
        (src.take (min src.length (s.buf.length - s.pos)))).length := by
    omega
  have hshift := copyWithin0_take
    (setSlice s.buf s.pos (src.take (min src.length (s.buf.length - s.pos)))) n
    (by omega)
  refine ⟨by rw [hbeq], by simp; omega, ?_, ?_⟩
  · simp only [hpb]
    rw [show s.buf.length - n = (setSlice s.buf s.pos
      (src.take (min src.length (s.buf.length - s.pos)))).length - n from by omega]
    rw [hbeq] at hshift ⊢
    exact hshift
  · have hnb_eq : setSlice s.buf s.pos
        (src.take (min src.length (s.buf.length - s.pos))) =
        s.buf.take s.pos ++ src.take (min src.length (s.buf.length - s.pos)) :=
      setSlice_eq_append _ _ _ (by rw [htl]; omega)
    simp only [hpb]
    rw [hshift, List.append_assoc, List.take_append_drop, hnb_eq, hbeq,
      ← List.append_assoc]

/-- C3 witness: capacity-2 writer holding one byte; a one-byte write
fills the buffer; the scripted inner stream accepts exactly one of the
two bytes, and the partial-commit bookkeeping is as the theorem states. -/
theorem c3_witness :
    ((((BufferedWrite.new partialOneW [0,0]).write [5]).1.write [6]).2 =
        Res.ok 1) ∧
    ((((BufferedWrite.new partialOneW [0,0]).write [5]).1.write [6]).1.pos = 1) ∧
    ((((BufferedWrite.new partialOneW [0,0]).write [5]).1.write [6]).1.buf.take 1 =
      (setSlice ((BufferedWrite.new partialOneW [0,0]).write [5]).1.buf 1
        ([6].take 1)).drop 1) ∧
    ((((BufferedWrite.new partialOneW [0,0]).write [5]).1.write [6]).1.inner.written ++
      (((BufferedWrite.new partialOneW [0,0]).write [5]).1.write [6]).1.buf.take
        (((BufferedWrite.new partialOneW [0,0]).write [5]).1.write [6]).1.pos =
      ((BufferedWrite.new partialOneW [0,0]).write [5]).1.inner.written ++
        ((BufferedWrite.new partialOneW [0,0]).write [5]).1.buf.take 1 ++
        [6].take 1) := by
  have h := c3_partial_commit_shifts_tail
    (((BufferedWrite.new partialOneW [0,0]).write [5]).1) [6] 1 []
    (by decide) (by decide) (by decide) (by rfl) (by decide) (by decide)
  exact h

/-- One inner write never touches the flush bookkeeping. -/
theorem InnerW.write_preserves_flush (i : InnerW ε) (src : List Nat) :
    (i.write src).1.flushes = i.flushes ∧
    (i.write src).1.flushScript = i.flushScript := by
  unfold InnerW.write
  rcases hs : i.script with _ | ⟨r, rest⟩
  · simp
  · cases r <;> simp

/-- Any fuel at least `src.length` gives `writeAllAux` the same value:
the retry loop makes progress of at least one byte per round. -/
theorem writeAllAux_irrel (fuel : Nat) :
    ∀ (fuel' : Nat) (i : InnerW ε) (src : List Nat),
      src.length ≤ fuel → src.length ≤ fuel' →
      InnerW.writeAllAux fuel i src = InnerW.writeAllAux fuel' i src := by
  induction fuel using Nat.strong_induction_on with
  | _ fuel ih =>
    intro fuel' i src h h'
    cases src with
    | nil => cases fuel <;> cases fuel' <;> rfl
    | cons a as =>
      cases fuel with
      | zero => simp at h
      | succ f =>
        cases fuel' with
        | zero => simp at h'
        | succ f' =>
          simp only [InnerW.writeAllAux]
          rcases hw : i.write (a :: as) with ⟨i2, r⟩
          cases r with
          | error e => rfl
          | ok k =>
            by_cases hk : k = 0
            · simp [hk]
            · simp only [if_neg hk]
              exact ih f (Nat.lt_succ_self f) f' i2 ((a :: as).drop k)
                (by simp at h ⊢; omega) (by simp at h' ⊢; omega)

/-- Unfolding `writeAll` on the empty slice. -/
theorem InnerW.writeAll_nil (i : InnerW ε) : i.writeAll [] = (i, .ok ()) := rfl

/-- Unfolding `writeAll` when the first round fails. -/
theorem InnerW.writeAll_err (i i' : InnerW ε) (src : List Nat) (e : ε)
    (hsrc : src ≠ []) (hw : i.write src = (i', .error e)) :
    i.writeAll src = (i', .err e) := by
  rcases src with _ | ⟨a, as⟩
  · exact absurd rfl hsrc
  · simp only [InnerW.writeAll, InnerW.writeAllAux, List.length_cons, hw]

/-- Unfolding `writeAll` when the first round accepts `k ≠ 0` bytes. -/
theorem InnerW.writeAll_step (i i' : InnerW ε) (src : List Nat) (k : Nat)
    (hsrc : src ≠ []) (hw : i.write src = (i', .ok k)) (hk : k ≠ 0) :
    i.writeAll src = i'.writeAll (src.drop k) := by
  rcases src with _ | ⟨a, as⟩
  · exact absurd rfl hsrc
  · simp only [InnerW.writeAll, InnerW.writeAllAux, List.length_cons, hw, if_neg hk]
    exact writeAllAux_irrel _ _ i' ((a :: as).drop k)
      (by simp; omega) (by simp)

/-- Unfolding `writeAll` when the first round accepts zero bytes of a
non-empty remainder: the `embedded-io` loop panics. -/
theorem InnerW.writeAll_ok0 (i i' : InnerW ε) (src : List Nat)
    (hsrc : src ≠ []) (hw : i.write src = (i', .ok 0)) :
    i.writeAll src = (i', .panicked) := by
  rcases src with _ | ⟨a, as⟩
  · exact absurd rfl hsrc
  · simp [InnerW.writeAll, InnerW.writeAllAux, hw]

/-- The `write_all` retry loop never touches the flush bookkeeping. -/
theorem InnerW.writeAll_preserves_flush (L : Nat) :
    ∀ (i : InnerW ε) (src : List Nat), src.length ≤ L →
      (i.writeAll src).1.flushes = i.flushes ∧
      (i.writeAll src).1.flushScript = i.flushScript := by
  induction L using Nat.strong_induction_on with
  | _ L ih =>
    intro i src hL
    rcases hsrc : src with _ | ⟨a, as⟩
    · simp [InnerW.writeAll_nil]
    · subst hsrc
      rcases hw : i.write (a :: as) with ⟨i2, r⟩
      have hpf := InnerW.write_preserves_flush i (a :: as)
      rw [hw] at hpf
      cases r with
      | error e =>
        rw [InnerW.writeAll_err i i2 _ e (by simp) hw]
        exact hpf
      | ok k =>
        by_cases hk : k = 0
        · subst hk
          rw [InnerW.writeAll_ok0 i i2 _ (by simp) hw]
          exact hpf
        · rw [InnerW.writeAll_step i i2 _ k (by simp) hw hk]
          cases L with
          | zero => simp at hL
          | succ L0 =>
            have hrec := ih L0 (Nat.lt_succ_self L0) i2 ((a :: as).drop k)
              (by simp at hL ⊢; omega)
            exact ⟨hrec.1.trans hpf.1, hrec.2.trans hpf.2⟩

/-- One inner flush call always increments the flush counter. -/
theorem InnerW.flushStep_flushes (i : InnerW ε) :
    i.flushStep.1.flushes = i.flushes + 1 := by
  unfold InnerW.flushStep
  rcases hs : i.flushScript with _ | ⟨o, rest⟩
  · simp
  · cases o <;> simp

/-- C5: `flush` with `pos > 0` performs a write-all of `buf[..pos]`; only
on its success does it set `pos = 0` and then call the inner stream's
own flush (propagating that result and incrementing the inner flush
counter); if the write-all fails, that error is propagated, `pos` is
left unchanged and the inner flush is not called; with `pos == 0` the
inner flush is called directly. -/
theorem c5_flush_contract (s : BufferedWrite ε) :
    (s.pos = 0 →
      s.flush = ({ s with inner := s.inner.flushStep.1 },
        match s.inner.flushStep.2 with
        | .ok _ => Res.ok ()
        | .error e => Res.err e) ∧
      s.flush.1.inner.flushes = s.inner.flushes + 1) ∧
    (∀ i' e, s.pos ≠ 0 →
      s.inner.writeAll (s.buf.take s.pos) = (i', Res.err e) →
      s.flush = ({ s with inner := i' }, Res.err e) ∧
      i'.flushes = s.inner.flushes) ∧
    (∀ i', s.pos ≠ 0 →
      s.inner.writeAll (s.buf.take s.pos) = (i', Res.ok ()) →
      s.flush = ({ s with pos := 0, inner := i'.flushStep.1 },
        match i'.flushStep.2 with
        | .ok _ => Res.ok ()
        | .error e => Res.err e) ∧
      s.flush.1.inner.flushes = i'.flushes + 1) := by
  refine ⟨?_, ?_, ?_⟩
  · intro h0
    have hflush : s.flush = ({ s with inner := s.inner.flushStep.1 },
        match s.inner.flushStep.2 with
        | .ok _ => Res.ok ()
        | .error e => Res.err e) := by
      simp only [BufferedWrite.flush, if_neg (by omega : ¬ s.pos > 0)]
    refine ⟨hflush, ?_⟩
    rw [hflush]
    exact InnerW.flushStep_flushes s.inner
  · intro i' e hp hwa
    refine ⟨?_, ?_⟩
    · simp only [BufferedWrite.flush, if_pos (by omega : s.pos > 0), hwa]
    · have hpf := InnerW.writeAll_preserves_flush (s.buf.take s.pos).length
        s.inner (s.buf.take s.pos) le_rfl
      rw [hwa] at hpf
      exact hpf.1
  · intro i' hp hwa
    have hflush : s.flush = ({ s with pos := 0, inner := i'.flushStep.1 },
        match i'.flushStep.2 with
        | .ok _ => Res.ok ()
        | .error e => Res.err e) := by
      simp only [BufferedWrite.flush, if_pos (by omega : s.pos > 0), hwa]
    refine ⟨hflush, ?_⟩
    rw [hflush]
    exact InnerW.flushStep_flushes i'

/-- C5 witness: the three flush scenarios at concrete states — an empty
writer (`pos = 0`), a writer holding one byte whose inner write-all
fails, and a writer holding one byte whose inner write-all succeeds. -/
theorem c5_witness :
    ((BufferedWrite.new sinkW [0,0]).flush =
      ({ BufferedWrite.new sinkW [0,0] with
          inner := (BufferedWrite.new sinkW [0,0]).inner.flushStep.1 },
        Res.ok ())) ∧
    (((BufferedWrite.new failThenSinkW [0,0]).write [5]).1.flush =
      ({ ((BufferedWrite.new failThenSinkW [0,0]).write [5]).1 with
          inner := (⟨[], [], [], 1, 0⟩ : InnerW Unit) }, Res.err ()) ∧
      (⟨[], [], [], 1, 0⟩ : InnerW Unit).flushes =
        ((BufferedWrite.new failThenSinkW [0,0]).write [5]).1.inner.flushes) ∧
    (((BufferedWrite.new sinkW [0,0]).write [5]).1.flush =
      ({ ((BufferedWrite.new sinkW [0,0]).write [5]).1 with
          pos := 0, inner := (⟨[5], [], [], 1, 0⟩ : InnerW Unit).flushStep.1 },
        Res.ok ())) := by
  refine ⟨((c5_flush_contract _).1 rfl).1, ?_, ?_⟩
  · exact (c5_flush_contract _).2.1 ⟨[], [], [], 1, 0⟩ () (by decide) (by rfl)
  · exact ((c5_flush_contract _).2.2 ⟨[5], [], [], 1, 0⟩ (by decide) (by rfl)).1

/-- Any fuel at least `src.length` gives `writeFullyAux` the same value. -/
theorem writeFullyAux_irrel (fuel : Nat) :
    ∀ (fuel' : Nat) (s : BufferedWrite ε) (src : List Nat),
      src.length ≤ fuel → src.length ≤ fuel' →
      BufferedWrite.writeFullyAux fuel s src =
        BufferedWrite.writeFullyAux fuel' s src := by
  induction fuel using Nat.strong_induction_on with
  | _ fuel ih =>
    intro fuel' s src h h'
    cases src with
    | nil => cases fuel <;> cases fuel' <;> rfl
    | cons a as =>
      cases fuel with
      | zero => simp at h
      | succ f =>
        cases fuel' with
        | zero => simp at h'
        | succ f' =>
          simp only [BufferedWrite.writeFullyAux]
          rcases hw : s.write (a :: as) with ⟨s2, r⟩
          cases r with
          | err e => rfl
          | panicked => rfl
          | ok n =>
            by_cases hn : 0 < n ∧ n < (a :: as).length
            · simp only [if_pos hn]
              exact ih f (Nat.lt_succ_self f) f' s2 ((a :: as).drop n)
                (by simp at h ⊢; omega) (by simp at h' ⊢; omega)
            · simp only [if_neg hn]

/-- Unfolding `writeFully` on the empty slice. -/
theorem BufferedWrite.writeFully_nil (s : BufferedWrite ε) :
    s.writeFully [] = s := rfl

/-- Unfolding `writeFully` when a round accepts part of the slice. -/
theorem BufferedWrite.writeFully_step (s s' : BufferedWrite ε) (src : List Nat)
    (n : Nat) (hsrc : src ≠ []) (hw : s.write src = (s', Res.ok n))
    (hn : 0 < n ∧ n < src.length) :
    s.writeFully src = s'.writeFully (src.drop n) := by
  rcases src with _ | ⟨a, as⟩
  · exact absurd rfl hsrc
  · simp only [BufferedWrite.writeFully, BufferedWrite.writeFullyAux,
      List.length_cons, hw]
    rw [if_pos (by simpa using hn)]
    exact writeFullyAux_irrel as.length (((a :: as).drop n).length) s'
      ((a :: as).drop n) (by simp; omega) le_rfl

/-- Unfolding `writeFully` when a round finishes the loop (everything
accepted, or an error/panic). -/
theorem BufferedWrite.writeFully_last (s s' : BufferedWrite ε) (src : List Nat)
    (r : Res Nat ε) (hsrc : src ≠ []) (hw : s.write src = (s', r))
    (hn : ∀ n, r = Res.ok n → ¬(0 < n ∧ n < src.length)) :
    s.writeFully src = s' := by
  rcases src with _ | ⟨a, as⟩
  · exact absurd rfl hsrc
  · cases r with
    | ok n =>
      have h' : ¬(0 < n ∧ n < (a :: as).length) := hn n rfl
      simp only [BufferedWrite.writeFully, BufferedWrite.writeFullyAux,
        List.length_cons, hw]
      rw [if_neg (by simpa using h')]
    | err e =>
      simp only [BufferedWrite.writeFully, BufferedWrite.writeFullyAux,
        List.length_cons, hw]
    | panicked =>
      simp only [BufferedWrite.writeFully, BufferedWrite.writeFullyAux,
        List.length_cons, hw]

/-- One `write` against a perfect-sink inner stream always succeeds,
accepts at least one byte of a non-empty slice, and extends the stream
of logically submitted bytes (`absBytes`) by exactly the accepted
prefix, preserving the sink script, the flush script, the capacity and
the position invariant. -/
theorem write_sink_step (s : BufferedWrite ε) (src : List Nat)
    (hscript : s.inner.script = [])
    (hpos : s.pos = 0 ∨ s.pos < s.buf.length) :
    ∃ n, (s.write src).2 = Res.ok n ∧
      (src ≠ [] → 1 ≤ n) ∧
      (s.write src).1.absBytes = s.absBytes ++ src.take n ∧
      (s.write src).1.inner.script = [] ∧
      (s.write src).1.inner.flushScript = s.inner.flushScript ∧
      (s.write src).1.buf.length = s.buf.length ∧
      ((s.write src).1.pos = 0 ∨ (s.write src).1.pos < (s.write src).1.buf.length) := by
  by_cases hsrc : src = []
  · refine ⟨0, ?_⟩
    subst hsrc
    simp only [BufferedWrite.write, if_pos rfl]
    simp [BufferedWrite.absBytes, hpos, hscript]
  · by_cases hby : s.pos = 0 ∧ src.length ≥ s.buf.length
    · have hiw := InnerW.write_sink_eq s.inner src hscript
      rw [write_bypass_eq s src _ _ hsrc hby hiw]
      refine ⟨src.length, rfl, fun _ => List.length_pos.mpr hsrc, ?_, hscript, rfl, rfl, ?_⟩
      · simp [BufferedWrite.absBytes, hby.1]
      · exact Or.inl hby.1
    · have hplt : s.pos < s.buf.length := by
        rcases hpos with h0 | hlt
        · have : src.length < s.buf.length := by
            by_contra hc
            exact hby ⟨h0, by omega⟩
          omega
        · exact hlt
      have hsl : 0 < src.length := List.length_pos.mpr hsrc
      have hb : min src.length (s.buf.length - s.pos) ≠ 0 := by omega
      have htl : (src.take (min src.length (s.buf.length - s.pos))).length =
          min src.length (s.buf.length - s.pos) := by simp
      by_cases hfull : s.pos + min src.length (s.buf.length - s.pos) < s.buf.length
      · rw [write_not_full_eq s src _ _ hsrc hby rfl rfl hb hfull]
        refine ⟨min src.length (s.buf.length - s.pos), rfl, fun _ => by omega,
          ?_, hscript, rfl, setSlice_length _ _ _ (by omega), ?_⟩
        · simp only [BufferedWrite.absBytes]
          rw [show s.pos + min src.length (s.buf.length - s.pos) =
            s.pos + (src.take (min src.length (s.buf.length - s.pos))).length from by
              rw [htl]]
          rw [setSlice_take_add s.buf _ s.pos (by omega), ← List.append_assoc]
        · refine Or.inr ?_
          rw [setSlice_length _ _ _ (by omega)]
          exact hfull
      · have hnb_len : (setSlice s.buf s.pos
            (src.take (min src.length (s.buf.length - s.pos)))).length =
            s.buf.length := setSlice_length _ _ _ (by omega)
        have hiw := InnerW.write_sink_eq s.inner
          (setSlice s.buf s.pos (src.take (min src.length (s.buf.length - s.pos))))
          hscript
        have hw : ¬ (setSlice s.buf s.pos
            (src.take (min src.length (s.buf.length - s.pos)))).length <
            s.pos + min src.length (s.buf.length - s.pos) := by omega
        rw [write_full_all_eq s src _ _ _ _ hsrc hby rfl rfl hb hfull hiw hw]
        refine ⟨min src.length (s.buf.length - s.pos), rfl, fun _ => by omega,
          ?_, hscript, rfl, hnb_len, Or.inl rfl⟩
        simp only [BufferedWrite.absBytes, List.take_zero, List.append_nil]
        rw [setSlice_eq_append _ _ _ (by rw [htl]; omega), ← List.append_assoc]

/-- The caller loop against a perfect sink absorbs the whole slice:
`absBytes` grows by exactly `src`, and the sink shape is preserved. -/
theorem writeFully_sink (L : Nat) :
    ∀ (s : BufferedWrite ε) (src : List Nat), src.length ≤ L →
      s.inner.script = [] → (s.pos = 0 ∨ s.pos < s.buf.length) →
      (s.writeFully src).absBytes = s.absBytes ++ src ∧
      (s.writeFully src).inner.script = [] ∧
      (s.writeFully src).inner.flushScript = s.inner.flushScript ∧
      (s.writeFully src).buf.length = s.buf.length ∧
      ((s.writeFully src).pos = 0 ∨
        (s.writeFully src).pos < (s.writeFully src).buf.length) := by
  induction L using Nat.strong_induction_on with
  | _ L ih =>
    intro s src hL hscript hpos
    by_cases hsrc : src = []
    · subst hsrc
      simp [BufferedWrite.writeFully_nil, hscript, hpos]
    · obtain ⟨n, hres, hn1, habs, hscript', hfs', hlen', hpos'⟩ :=
        write_sink_step s src hscript hpos
      have hw : s.write src = ((s.write src).1, Res.ok n) := by
        rw [← hres]
      have hn : 1 ≤ n := hn1 hsrc
      by_cases hlast : n < src.length
      · rw [BufferedWrite.writeFully_step s _ src n hsrc hw ⟨hn, hlast⟩]
        cases L with
        | zero => exact absurd (List.length_eq_zero.mp (Nat.le_zero.mp hL)) hsrc
        | succ L0 =>
          obtain ⟨rabs, rscript, rfs, rlen, rpos⟩ :=
            ih L0 (Nat.lt_succ_self L0) ((s.write src).1) (src.drop n)
              (by simp; omega) hscript' hpos'
          refine ⟨?_, rscript, rfs.trans hfs', rlen.trans hlen', rpos⟩
          rw [rabs, habs, List.append_assoc, List.take_append_drop]
      · rw [BufferedWrite.writeFully_last s _ src (Res.ok n) hsrc hw
          (fun m hm => by
            injection hm with hnm
            subst hnm
            exact fun hc => hlast hc.2)]
        have : src.take n = src := List.take_of_length_le (by omega)
        rw [habs, this] at *
        exact ⟨rfl, hscript', hfs', hlen', hpos'⟩

/-- A sequence of caller writes against a perfect sink accumulates the
concatenation of all slices. -/
theorem writeMany_sink (srcs : List (List Nat)) :
    ∀ (s : BufferedWrite ε), s.inner.script = [] →
      (s.pos = 0 ∨ s.pos < s.buf.length) →
      (s.writeMany srcs).absBytes = s.absBytes ++ srcs.flatten ∧
      (s.writeMany srcs).inner.script = [] ∧
      (s.writeMany srcs).inner.flushScript = s.inner.flushScript ∧
      ((s.writeMany srcs).pos = 0 ∨
        (s.writeMany srcs).pos < (s.writeMany srcs).buf.length) := by
  induction srcs with
  | nil =>
    intro s hscript hpos
    simp [BufferedWrite.writeMany, hscript, hpos]
  | cons x xs ihx =>
    intro s hscript hpos
    have hstep := writeFully_sink x.length s x le_rfl hscript hpos
    have hrest := ihx (s.writeFully x) hstep.2.1 hstep.2.2.2.2
    have hfold : s.writeMany (x :: xs) = (s.writeFully x).writeMany xs := rfl
    rw [hfold]
    refine ⟨?_, hrest.2.1, hrest.2.2.1.trans hstep.2.2.1, hrest.2.2.2⟩
    rw [hrest.1, hstep.1, List.append_assoc]
    simp

/-- The `write_all` loop against a perfect sink accepts the whole slice. -/
theorem InnerW.writeAll_sink (i : InnerW ε) (src : List Nat)
    (h : i.script = []) :
    (i.writeAll src).2 = Res.ok () ∧
    (i.writeAll src).1.written = i.written ++ src ∧
    (i.writeAll src).1.script = [] ∧
    (i.writeAll src).1.flushScript = i.flushScript := by
  rcases hsrc : src with _ | ⟨a, as⟩
  · simp [InnerW.writeAll_nil, h]
  · have hw := InnerW.write_sink_eq i (a :: as) h
    have hk : (a :: as).length ≠ 0 := by simp
    rw [InnerW.writeAll_step i _ (a :: as) (a :: as).length (by simp) hw hk]
    rw [List.drop_length, InnerW.writeAll_nil]
    simp [h]

/-- One inner flush with an exhausted flush script succeeds and changes
nothing but the counter. -/
theorem InnerW.flushStep_nil (i : InnerW ε) (h : i.flushScript = []) :
    i.flushStep = ({ i with flushes := i.flushes + 1 }, .ok ()) := by
  simp only [InnerW.flushStep, h]

/-- C2: for every sequence of caller writes (each slice resubmitted until
accepted, per the partial-write contract) followed by one `flush`,
against an inner stream that accepts all bytes without error, the byte
sequence received by the inner stream equals the in-order concatenation
of all submitted slices, regardless of chunking; the flush also
succeeds. -/
theorem c2_round_trip (i : InnerW ε) (buf : List Nat) (srcs : List (List Nat))
    (hscript : i.script = []) (hflush : i.flushScript = []) :
    ((BufferedWrite.new i buf).writeMany srcs).flush.1.inner.written =
      i.written ++ srcs.flatten ∧
    ((BufferedWrite.new i buf).writeMany srcs).flush.2 = Res.ok () := by
  obtain ⟨habs, hscript2, hfs2, hpos2⟩ :=
    writeMany_sink srcs (BufferedWrite.new i buf) hscript (Or.inl rfl)
  have habs0 : (BufferedWrite.new i buf).absBytes = i.written := by
    simp [BufferedWrite.absBytes, BufferedWrite.new]
  rw [habs0] at habs
  have hfs3 : ((BufferedWrite.new i buf).writeMany srcs).inner.flushScript = [] := by
    rw [hfs2]
    exact hflush
  set sm := (BufferedWrite.new i buf).writeMany srcs with hsm
  by_cases hp : sm.pos > 0
  · obtain ⟨wres, wwritten, wscript, wfs⟩ :=
      InnerW.writeAll_sink sm.inner (sm.buf.take sm.pos) hscript2
    rcases hwa : sm.inner.writeAll (sm.buf.take sm.pos) with ⟨i2, r2⟩
    rw [hwa] at wres wwritten wscript wfs
    cases r2 with
    | err e => simp at wres
    | panicked => simp at wres
    | ok u =>
      cases u
      have hfstep : i2.flushStep = ({ i2 with flushes := i2.flushes + 1 }, .ok ()) :=
        InnerW.flushStep_nil i2 (by rw [wfs]; exact hfs3)
      simp only [BufferedWrite.flush, if_pos hp, hwa, hfstep]
      refine ⟨?_, trivial⟩
      rw [wwritten, ← BufferedWrite.absBytes, habs]
  · have hp0 : sm.pos = 0 := by omega
    have hfstep : sm.inner.flushStep =
        ({ sm.inner with flushes := sm.inner.flushes + 1 }, .ok ()) :=
      InnerW.flushStep_nil sm.inner hfs3
    simp only [BufferedWrite.flush, if_neg hp, hfstep]
    refine ⟨?_, trivial⟩
    have : sm.absBytes = sm.inner.written := by
      simp [BufferedWrite.absBytes, hp0]
    rw [← this, habs]

/-- C2 witness: three writes of total content `[1, 2, 3, 4, 5, 6]`
through a 3-byte buffer into a perfect sink, followed by a flush: the
sink receives exactly `[1, 2, 3, 4, 5, 6]`. -/
theorem c2_witness :
    ((BufferedWrite.new sinkW [0,0,0]).writeMany [[1], [2,3,4,5], [6]]).flush.1.inner.written =
      [1,2,3,4,5,6] ∧
    ((BufferedWrite.new sinkW [0,0,0]).writeMany [[1], [2,3,4,5], [6]]).flush.2 =
      Res.ok () :=
  c2_round_trip sinkW [0,0,0] [[1], [2,3,4,5], [6]] rfl rfl

/-- Every inner read increments the read counter by exactly one. -/
theorem InnerR.read_reads (i : InnerR ε) (dstLen : Nat) :
    (i.read dstLen).1.reads = i.reads + 1 := by
  unfold InnerR.read
  rcases hs : i.script with _ | ⟨r, rest⟩
  · simp
  · cases r <;> simp

/-- A successful inner read never delivers more bytes than requested. -/
theorem InnerR.read_ok_length (i i2 : InnerR ε) (dstLen : Nat) (bytes : List Nat)
    (h : i.read dstLen = (i2, .ok bytes)) : bytes.length ≤ dstLen := by
  unfold InnerR.read at h
  rcases hs : i.script with _ | ⟨r, rest⟩
  · rw [hs] at h
    simp only [Prod.mk.injEq] at h
    obtain ⟨-, hb⟩ := h
    injection hb with hb
    subst hb
    simp
  · rw [hs] at h
    cases r with
    | error e => simp at h
    | ok n =>
      simp only [Prod.mk.injEq] at h
      obtain ⟨-, hb⟩ := h
      injection hb with hb
      subst hb
      simp

/-- The drain phase preserves the reader invariant. -/
theorem readCopy_inv (s : BufferedRead ε) (dstLen : Nat) (h : s.inv) :
    (s.readCopy dstLen).1.inv := by
  simp only [BufferedRead.readCopy, BufferedRead.inv] at h ⊢
  split_ifs with hl <;> simp <;> omega

/-- C7: the reader predicate `offset + available <= buf.len()` holds
after construction by `new` and by `new_with_data` (whose asserted
precondition is exactly this bound), and is preserved by `read`,
`fill_buf`, and `consume` (the latter under its asserted precondition
`amt <= available`). -/
theorem c7_reader_invariant (i : InnerR ε) (buf : List Nat)
    (off avail dstLen amt : Nat) (s t : BufferedRead ε) :
    (BufferedRead.new i buf).inv ∧
    (BufferedRead.new_with_data i buf off avail = some t → t.inv) ∧
    (s.inv → (s.read dstLen).1.inv) ∧
    (s.inv → s.fill_buf.1.inv) ∧
    (s.inv → s.consume amt = some t → t.inv) := by
  refine ⟨?_, ?_, ?_, ?_, ?_⟩
  · simp [BufferedRead.new, BufferedRead.inv]
  · intro ht
    unfold BufferedRead.new_with_data at ht
    split at ht
    · injection ht with ht
      subst ht
      exact ‹off + avail ≤ buf.length›
    · cases ht
  · intro hinv
    by_cases h0 : s.available = 0
    · by_cases hbig : dstLen ≥ s.buf.length
      · simp only [BufferedRead.read, if_pos h0, if_pos hbig]
        rcases hir : s.inner.read dstLen with ⟨i2, r2⟩
        simp only [hir]
        cases r2 <;> exact hinv
      · simp only [BufferedRead.read, if_pos h0, if_neg hbig]
        rcases hir : s.inner.read s.buf.length with ⟨i2, r2⟩
        simp only [hir]
        cases r2 with
        | error e =>
          simp only [BufferedRead.inv]
          simp
          omega
        | ok bytes =>
          have hlen : bytes.length ≤ s.buf.length :=
            InnerR.read_ok_length s.inner i2 s.buf.length bytes hir
          rcases hrc : BufferedRead.readCopy
              { s with inner := i2, offset := 0,
                       buf := setSlice s.buf 0 bytes,
                       available := bytes.length } dstLen with ⟨s2, out⟩
          simp only [hrc]
          have := readCopy_inv
            { s with inner := i2, offset := 0,
                     buf := setSlice s.buf 0 bytes,
                     available := bytes.length } dstLen
            (by simp [BufferedRead.inv]; rw [setSlice_length _ _ _ (by omega)]; omega)
          rw [hrc] at this
          exact this
    · simp only [BufferedRead.read, if_neg h0]
      rcases hrc : s.readCopy dstLen with ⟨s2, out⟩
      simp only [hrc]
      have := readCopy_inv s dstLen hinv
      rw [hrc] at this
      exact this
  · intro hinv
    by_cases h0 : s.available = 0
    · simp only [BufferedRead.fill_buf, if_pos h0]
      rcases hir : s.inner.read s.buf.length with ⟨i2, r2⟩
      simp only [hir]
      cases r2 with
      | error e =>
        simp only [BufferedRead.inv]
        simp
        omega
      | ok bytes =>
        have hlen : bytes.length ≤ s.buf.length :=
          InnerR.read_ok_length s.inner i2 s.buf.length bytes hir
        simp only [BufferedRead.inv]
        rw [setSlice_length _ _ _ (by omega)]
        omega
    · simp only [BufferedRead.fill_buf, if_neg h0]
      exact hinv
  · intro hinv hc
    unfold BufferedRead.consume at hc
    split at hc
    · injection hc with hc
      subst hc
      simp only [BufferedRead.inv] at hinv ⊢
      omega
    · cases hc

/-- C7 witness: the invariant at concrete instances — a fresh reader, a
pre-populated reader (offset 1, one available byte, capacity 2), a
one-byte read, a `fill_buf`, and a one-byte `consume`, all hypotheses
discharged concretely. -/
theorem c7_witness :
    (BufferedRead.new (sliceR [1,2,3]) [0,0]).inv ∧
    (⟨sliceR [3], [0,0], 1, 1⟩ : BufferedRead Unit).inv ∧
    ((BufferedRead.new (sliceR [1,2,3]) [0,0]).read 1).1.inv ∧
    (BufferedRead.new (sliceR [1,2,3]) [0,0]).fill_buf.1.inv ∧
    (⟨sliceR [3], [0,0], 2, 0⟩ : BufferedRead Unit).inv := by
  have h := c7_reader_invariant (sliceR [1,2,3]) [0,0] 1 1 1 1
    (BufferedRead.new (sliceR [1,2,3]) [0,0]) (⟨sliceR [3], [0,0], 1, 1⟩ :
      BufferedRead Unit)
  have hnew := h.1
  have h2 := c7_reader_invariant (sliceR [3]) [0,0] 1 1 1 1
    (⟨sliceR [3], [0,0], 1, 1⟩ : BufferedRead Unit)
    (⟨sliceR [3], [0,0], 1, 1⟩ : BufferedRead Unit)
  have hpre : (⟨sliceR [3], [0,0], 1, 1⟩ : BufferedRead Unit).inv :=
    h2.2.1 rfl
  have h3 := c7_reader_invariant (sliceR [3]) [0,0] 1 1 1 1
    (⟨sliceR [3], [0,0], 1, 1⟩ : BufferedRead Unit)
    (⟨sliceR [3], [0,0], 2, 0⟩ : BufferedRead Unit)
  refine ⟨hnew, hpre, h.2.2.1 hnew, h.2.2.2.1 hnew, h3.2.2.2.2 hpre rfl⟩

/-- C8: a `read` issued while `available == 0` with a destination at
least as large as the internal buffer is delegated to the inner stream
with exactly one inner call (the read counter increases by one), the
internal buffer, `offset` and `available` are untouched, and the inner
stream's result is returned unchanged. -/
theorem c8_empty_large_read_bypasses (s : BufferedRead ε) (dstLen : Nat)
    (h0 : s.available = 0) (hbig : s.buf.length ≤ dstLen) :
    s.read dstLen =
      ({ s with inner := (s.inner.read dstLen).1 }, (s.inner.read dstLen).2) ∧
    (s.read dstLen).1.buf = s.buf ∧
    (s.read dstLen).1.offset = s.offset ∧
    (s.read dstLen).1.available = s.available ∧
    (s.read dstLen).1.inner.reads = s.inner.reads + 1 := by
  have heq : s.read dstLen =
      ({ s with inner := (s.inner.read dstLen).1 }, (s.inner.read dstLen).2) := by
    simp only [BufferedRead.read, if_pos h0, if_pos (by omega : dstLen ≥ s.buf.length)]
  refine ⟨heq, ?_, ?_, ?_, ?_⟩ <;> rw [heq] <;>
    first
    | rfl
    | exact InnerR.read_reads s.inner dstLen

/-- C8 witness: an empty capacity-2 reader asked for 5 bytes bypasses its
buffer and returns the inner slice reader's three bytes directly. -/
theorem c8_witness :
    (BufferedRead.new (sliceR [1,2,3]) [0,0]).read 5 =
      ({ BufferedRead.new (sliceR [1,2,3]) [0,0] with
          inner := ((sliceR [1,2,3]).read 5).1 },
        ((sliceR [1,2,3]).read 5).2) ∧
    ((BufferedRead.new (sliceR [1,2,3]) [0,0]).read 5).1.inner.reads =
      (sliceR [1,2,3]).reads + 1 := by
  have h := c8_empty_large_read_bypasses
    (BufferedRead.new (sliceR [1,2,3]) [0,0]) 5 rfl (by decide)
  exact ⟨h.1, h.2.2.2.2⟩

/-- A contract-abiding inner reader (`scriptPositive`) that delivers zero
bytes was at end-of-stream for this request size: any further request of
the same size can only deliver zero bytes (the remaining data or the
request is empty), and the contract predicate is preserved. -/
theorem InnerR.read_nil_next (i i2 : InnerR ε) (cap : Nat)
    (hsp : i.scriptPositive) (h : i.read cap = (i2, .ok [])) :
    min cap i2.data.length = 0 ∧ i2.scriptPositive := by
  unfold InnerR.read at h
  rcases hs : i.script with _ | ⟨r, rest⟩ <;> rw [hs] at h
  · simp only [Prod.mk.injEq] at h
    obtain ⟨hi2, hb⟩ := h
    injection hb with hb
    have hlen : (i.data.take (min cap i.data.length)).length = 0 := by rw [hb]; rfl
    simp only [List.length_take] at hlen
    subst hi2
    constructor
    · simp only [List.length_drop]
      omega
    · intro m hm
      simp at hm
  · cases r with
    | error e => simp at h
    | ok n =>
      simp only [Prod.mk.injEq] at h
      obtain ⟨hi2, hb⟩ := h
      injection hb with hb
      have hn : 1 ≤ n := hsp n (by rw [hs]; exact List.mem_cons_self _ _)
      have hlen : (i.data.take (min n (min cap i.data.length))).length = 0 := by
        rw [hb]; rfl
      simp only [List.length_take] at hlen
      subst hi2
      constructor
      · simp only [List.length_drop]
        omega
      · intro m hm
        exact hsp m (by rw [hs]; exact List.mem_cons_of_mem _ hm)

/-- A read request whose size or data is exhausted delivers no bytes. -/
theorem InnerR.read_min_zero (i i2 : InnerR ε) (cap : Nat) (bytes : List Nat)
    (h : i.read cap = (i2, .ok bytes)) (hm : min cap i.data.length = 0) :
    bytes = [] := by
  unfold InnerR.read at h
  rcases hs : i.script with _ | ⟨r, rest⟩ <;> rw [hs] at h
  · simp only [Prod.mk.injEq] at h
    obtain ⟨-, hb⟩ := h
    injection hb with hb
    rw [← hb]
    apply List.length_eq_zero.mp
    simp only [List.length_take]
    omega
  · cases r with
    | error e => simp at h
    | ok n =>
      simp only [Prod.mk.injEq] at h
      obtain ⟨-, hb⟩ := h
      injection hb with hb
      rw [← hb]
      apply List.length_eq_zero.mp
      simp only [List.length_take]
      omega

/-- C9: `fill_buf` never discards unread buffered bytes — with
`available != 0` it returns the current view `buf[offset..offset+available]`
and leaves the whole state (inner stream included) untouched, refilling
from the inner stream only when `available == 0`; and two successive
`fill_buf` calls with no intervening `consume`, against an inner reader
satisfying the read contract (zero bytes delivered only at
end-of-stream), return the identical view both times. -/
theorem c9_fill_buf_stable (s s₁ s₂ : BufferedRead ε) (v w : List Nat) :
    (s.available ≠ 0 →
      s.fill_buf = (s, Except.ok ((s.buf.drop s.offset).take s.available))) ∧
    (s.inner.scriptPositive →
      s.fill_buf = (s₁, .ok v) → s₁.fill_buf = (s₂, .ok w) → w = v) := by
  constructor
  · intro h0
    simp only [BufferedRead.fill_buf, if_neg h0]
  · intro hsp h1 h2
    by_cases h0 : s.available = 0
    · simp only [BufferedRead.fill_buf, if_pos h0] at h1
      rcases hir : s.inner.read s.buf.length with ⟨i2, r2⟩
      rw [hir] at h1
      cases r2 with
      | error e => simp at h1
      | ok bytes =>
        simp only [Prod.mk.injEq] at h1
        obtain ⟨hs1, hv⟩ := h1
        injection hv with hv
        by_cases hbn : bytes = []
        · subst hbn
          have hv0 : v = [] := by
            rw [← hv]
            simp
          have ha1 : s₁.available = 0 := by
            rw [← hs1]
            rfl
          simp only [BufferedRead.fill_buf, if_pos ha1] at h2
          rcases hir2 : s₁.inner.read s₁.buf.length with ⟨i3, r3⟩
          rw [hir2] at h2
          cases r3 with
          | error e => simp at h2
          | ok bytes2 =>
            simp only [Prod.mk.injEq] at h2
            obtain ⟨hs2, hw⟩ := h2
            injection hw with hw
            have hnil := InnerR.read_nil_next s.inner i2 s.buf.length hsp hir
            have hinner1 : s₁.inner = i2 := by rw [← hs1]
            have hlen1 : s₁.buf.length = s.buf.length := by
              rw [← hs1]
              simp [setSlice]
            have hb2 : bytes2 = [] := by
              refine InnerR.read_min_zero s₁.inner i3 s₁.buf.length bytes2 hir2 ?_
              rw [hinner1, hlen1]
              exact hnil.1
            subst hb2
            rw [← hw, hv0]
            simp
        · have ha1 : s₁.available ≠ 0 := by
            rw [← hs1]
            simpa using hbn
          simp only [BufferedRead.fill_buf, if_neg ha1] at h2
          simp only [Prod.mk.injEq] at h2
          obtain ⟨hs2, hw⟩ := h2
          injection hw with hw
          rw [← hw, ← hv, ← hs1]
    · simp only [BufferedRead.fill_buf, if_neg h0] at h1
      simp only [Prod.mk.injEq] at h1
      obtain ⟨hs1, hv⟩ := h1
      injection hv with hv
      rw [← hs1] at h2
      simp only [BufferedRead.fill_buf, if_neg h0] at h2
      simp only [Prod.mk.injEq] at h2
      obtain ⟨hs2, hw⟩ := h2
      injection hw with hw
      rw [← hw, ← hv]

/-- C9 witness: a fresh capacity-2 reader over a two-byte stream; the
second `fill_buf` (no intervening `consume`) returns the same view
`[1, 2]` as the first. -/
theorem c9_witness :
    (BufferedRead.new (sliceR [1,2]) [0,0]).fill_buf.1.fill_buf.2 =
      (BufferedRead.new (sliceR [1,2]) [0,0]).fill_buf.2 := by
  have h := (c9_fill_buf_stable (BufferedRead.new (sliceR [1,2]) [0,0])
      ((BufferedRead.new (sliceR [1,2]) [0,0]).fill_buf.1)
      ((BufferedRead.new (sliceR [1,2]) [0,0]).fill_buf.1.fill_buf.1)
      [1,2] [1,2]).2
    (by intro n hn; simp [sliceR, BufferedRead.new, InnerR.scriptPositive] at hn)
    rfl rfl
  exact congrArg Except.ok h
